import Mathlib

/-!
# chess-wrapper-go: a shallow embedding of `chess.go`

The Go program keeps two heap-allocated `chessPlayer` objects (the globals
`player1` and `player2` hold pointers to them) and the global slice
`sessionPlayers` of such pointers.  The embedding passes this global state
explicitly as a `State`; a pointer is a `PlayerRef`.

* Go slices are lists.  The two `range` loops of `KillKing` shrink the slice
  they iterate over, so they are modelled over the backing array together
  with the current length (`rangeSwapTruncate`).
* A Go run-time panic (index out of range) is the result `none`.
* `strings.ToLower` and `strings.Title` belong to the Go standard library and
  are parameters (`lower`, `title`) of the definitions; `asciiLower` and
  `asciiTitle` are concrete instances that agree with them on the ASCII words
  used by the program.
* `range pieceMap` visits the map in an unspecified order; the order used
  for the i-th session player is the parameter `orders i` of `placePieces`.
* Calls are sequential, so the mutex of `MovePiece` is always free on entry
  and released on exit; it is not part of the state.
* Of the console output only the lines printed by `MovePiece` are tracked.
-/

namespace Chess

/-! ## Data model -/

/-- The Go struct `piece`. -/
structure piece where
  name : String
  color : String
  currentPosition : String
  exist : Bool
  allowMoves : List String
deriving DecidableEq, Repr

/-- The Go struct `chessPlayer`. -/
structure chessPlayer where
  name : String
  color : String
  playablePieces : List piece
deriving DecidableEq, Repr

/-- A pointer to one of the two player objects allocated by `init`. -/
inductive PlayerRef where
  | p1
  | p2
deriving DecidableEq, Repr

/-- The global variables: the two player objects and `sessionPlayers`. -/
structure State where
  player1 : chessPlayer
  player2 : chessPlayer
  sessionPlayers : List PlayerRef
deriving DecidableEq, Repr

/-- Dereference a player pointer. -/
def State.get (s : State) : PlayerRef → chessPlayer
  | .p1 => s.player1
  | .p2 => s.player2

/-- Store a player object through a pointer. -/
def State.set (s : State) (r : PlayerRef) (v : chessPlayer) : State :=
  match r with
  | .p1 => { s with player1 := v }
  | .p2 => { s with player2 := v }

/-- The other one of the two players. -/
def PlayerRef.other : PlayerRef → PlayerRef
  | .p1 => .p2
  | .p2 => .p1

/-- The global `pieceMap` (line 13), as its list of key/value pairs. -/
def pieceMap : List (String × Int) :=
  [("king", 1), ("queen", 1), ("rook", 2), ("bishop", 2), ("knight", 2), ("pawn", 8)]

/-- The function `init` (lines 168-172). -/
def init : State :=
  { player1 := { name := "Garry Kasparov", color := "White", playablePieces := [] }
    player2 := { name := "Deep Blue", color := "Black", playablePieces := [] }
    sessionPlayers := [.p1, .p2] }

/-! ## Standard-library instances for ASCII text -/

/-- Lower-casing of ASCII letters: `strings.ToLower` on ASCII text. -/
def asciiLower (s : String) : String := String.mk (s.data.map Char.toLower)

/-- Upper-casing of the first character: `strings.Title` on a single ASCII word. -/
def asciiTitle (s : String) : String :=
  match s.data with
  | [] => s
  | c :: cs => String.mk (c.toUpper :: cs)

/-! ## Operations -/

section Operations

variable (lower : String → String) (title : String → String)

/-- The test `strings.ToLower(p.name) == "king"` of lines 70 and 103. -/
def isKing (p : piece) : Bool := lower p.name == "king"

/-- The method `GetAvailability` (lines 101-108). -/
def chessPlayer.GetAvailability (v : chessPlayer) : Bool :=
  v.playablePieces.any (isKing lower)

/-- The method `GetName` (lines 86-88). -/
def chessPlayer.GetName (v : chessPlayer) : String := v.name

/-- The method `GetColor` (lines 91-93). -/
def chessPlayer.GetColor (v : chessPlayer) : String := v.color

/-- The method `GetPieces` (lines 96-98). -/
def chessPlayer.GetPieces (v : chessPlayer) : List piece := v.playablePieces

/-- The piece literal appended by `CreatePieces` (lines 114-120). -/
def newPiece (color pName : String) : piece :=
  { color := color
    name := lower pName
    currentPosition := "a1"
    exist := true
    allowMoves := ["blabla"] }

/-- The loop of `CreatePieces` (lines 113-121) with the given number of
iterations left. -/
def CreatePieces.loop (color pName : String) : Nat → List piece → List piece
  | 0, ps => ps
  | n + 1, ps => CreatePieces.loop color pName n (ps ++ [newPiece lower color pName])

/-- The method `CreatePieces` (lines 111-123), called through the pointer
`who`; `i < pCount` holds for `max pCount 0` values of `i`. -/
def CreatePieces (who : PlayerRef) (pName : String) (pCount : Int) (s : State) :
    State × Bool :=
  let v := s.get who
  (s.set who { v with playablePieces :=
      CreatePieces.loop lower v.color pName pCount.toNat v.playablePieces }, true)

/-- The loop shape shared by both loops of `KillKing`:
`for i, x := range xs { if hit x { xs[i] = xs[len(xs)-1]; xs = xs[:len(xs)-1] } }`.
`range` fixes the number of iterations and the backing array `arr` when the
loop starts and reads `x` from the backing array; the body indexes the
current, possibly shorter, slice of length `len`, which panics (`none`) when
`i` is not below `len`.  The first argument counts the iterations left. -/
def rangeSwapTruncate {α : Type} (hit : α → Bool) :
    Nat → Nat → List α → Nat → Option (List α × Nat)
  | 0, _, arr, len => some (arr, len)
  | k + 1, i, arr, len =>
    match arr[i]? with
    | none => none
    | some x =>
      if hit x then
        if i < len then
          match arr[len - 1]? with
          | none => none
          | some y => rangeSwapTruncate hit k (i + 1) (arr.set i y) (len - 1)
        else none
      else rangeSwapTruncate hit k (i + 1) arr len

/-- A whole `range` loop over the slice `xs`, returning the final slice. -/
def rangeLoop {α : Type} (hit : α → Bool) (xs : List α) : Option (List α) :=
  (rangeSwapTruncate hit xs.length 0 xs xs.length).map (fun r => r.1.take r.2)

/-- The first loop of `KillKing` (lines 69-74) on the roster. -/
def KillKing_roster (ps : List piece) : Option (List piece) :=
  rangeLoop (isKing lower) ps

/-- The second loop of `KillKing` (lines 76-81) on `sessionPlayers`. -/
def KillKing_session (s : State) (vname : String) : Option (List PlayerRef) :=
  rangeLoop (fun plr => (s.get plr).GetName == vname) s.sessionPlayers

/-- The method `KillKing` (lines 68-83), called through the pointer `who`. -/
def KillKing (who : PlayerRef) (s : State) : Option (State × Bool) :=
  let v := s.get who
  match KillKing_roster lower v.playablePieces with
  | none => none
  | some ps =>
    let s1 := s.set who { v with playablePieces := ps }
    match KillKing_session s1 v.name with
    | none => none
    | some sp => some ({ s1 with sessionPlayers := sp }, true)

/-- The function `IsGameEnded` (lines 126-131). -/
def IsGameEnded (s : State) : Bool :=
  if !s.player1.GetAvailability lower || !s.player2.GetAvailability lower then true
  else false

/-- The function `gameCoordinator` (lines 133-148): its body is `return ""`. -/
def gameCoordinator (_player : chessPlayer) (_pName _location : String) : String := ""

/-- What a call of `MovePiece` leaves behind: the global state, the returned
`error` (`none` is `nil`) and the lines printed. -/
structure MoveResult where
  state : State
  err : Option String
  out : List String
deriving DecidableEq, Repr

/-- The method `MovePiece` (lines 49-65) with receiver value `v`; `none` is
the panic of `sessionPlayers[0]` on an empty slice. -/
def MovePiece (v : chessPlayer) (pName location : String) (s : State) :
    Option MoveResult :=
  if IsGameEnded lower s then
    match s.sessionPlayers with
    | [] => none
    | w :: _ =>
      some { state := s
             err := some ("Sorry, the game already ended. The winner is: "
                      ++ (s.get w).GetName)
             out := [] }
  else
    let moving := "Player " ++ v.name ++ " is moving " ++ title pName ++ " to "
      ++ location ++ ".\n"
    if gameCoordinator v (lower pName) location != "" then
      some { state := s
             err := none
             out := [moving, title pName ++ " cannot move to " ++ location
                      ++ ". Move is illegal.\n"] }
    else
      some { state := s
             err := none
             out := [moving, title pName ++ " moved to " ++ location ++ ".\n"] }

/-- The inner loop of `placePieces` (lines 152-159) for one player, over the
map entries in the order `order`. -/
def placePieces.inner (plr : PlayerRef) : List (String × Int) → State → State
  | [], s => s
  | (pieceName, pieceCount) :: rest, s =>
    placePieces.inner plr rest (CreatePieces lower plr pieceName pieceCount s).1

/-- The outer loop of `placePieces` (lines 151-161) from iteration `i` on. -/
def placePieces.outer (orders : Nat → List (String × Int)) :
    Nat → List PlayerRef → State → State
  | _, [], s => s
  | i, plr :: rest, s =>
    placePieces.outer orders (i + 1) rest (placePieces.inner lower plr (orders i) s)

/-- The function `placePieces` (lines 150-162); its argument is unused in the
source, the loop ranges over the global `sessionPlayers`. -/
def placePieces (orders : Nat → List (String × Int)) (s : State) : State :=
  placePieces.outer lower orders 0 s.sessionPlayers s

/-- A call of one of the public operations. -/
inductive Op where
  | placePieces (orders : Nat → List (String × Int))
  | CreatePieces (who : PlayerRef) (pName : String) (pCount : Int)
  | MovePiece (who : PlayerRef) (pName location : String)
  | KillKing (who : PlayerRef)

/-- Run one call; `none` when it panics. -/
def step (op : Op) (s : State) : Option State :=
  match op with
  | .placePieces orders => some (placePieces lower orders s)
  | .CreatePieces who pName pCount => some (CreatePieces lower who pName pCount s).1
  | .MovePiece who pName location =>
    (MovePiece lower title (s.get who) pName location s).map (fun r => r.state)
  | .KillKing who => (KillKing lower who s).map (fun r => r.1)

/-- Run a sequence of calls, stopping at the first panic. -/
def run : List Op → State → Option State
  | [], s => some s
  | op :: ops, s =>
    match step lower title op s with
    | none => none
    | some s1 => run ops s1

end Operations

/-- The pieces that `placePieces` creates for one player of the given color
when it visits the map entries in the order `order`. -/
def piecesOf (lower : String → String) (color : String) (order : List (String × Int)) :
    List piece :=
  order.flatMap (fun e => List.replicate e.2.toNat (newPiece lower color e.1))

/-- The number of pieces of a roster with the given name. -/
def countNamed (ps : List piece) (n : String) : Nat := ps.countP (fun p => p.name == n)

/-- The number of kings in the roster of a player. -/
def kings (lower : String → String) (s : State) (who : PlayerRef) : Nat :=
  (s.get who).playablePieces.countP (isKing lower)

/-- The squares of the pieces with `exist = true`, over both rosters. -/
def alivePositions (s : State) : List String :=
  ((s.player1.playablePieces ++ s.player2.playablePieces).filter (fun p => p.exist)).map
    (fun p => p.currentPosition)

/-- No two pieces with `exist = true` stand on the same square. -/
def SquareUnique (s : State) : Prop := (alivePositions s).Nodup

instance (s : State) : Decidable (SquareUnique s) :=
  inferInstanceAs (Decidable (alivePositions s).Nodup)

/-- A call that cannot add a king to a roster: `MovePiece`, `KillKing`, and
`CreatePieces` with a count below one or a kind that is not a king. -/
def Op.addsNoKing (lower : String → String) : Op → Prop
  | .placePieces _ => False
  | .CreatePieces _ pName pCount => pCount ≤ 0 ∨ lower (lower pName) ≠ "king"
  | .MovePiece _ _ _ => True
  | .KillKing _ => True

instance (lower : String → String) (op : Op) : Decidable (op.addsNoKing lower) := by
  cases op <;> unfold Op.addsNoKing <;> infer_instance

/-- The set-up session for ASCII lower-casing and the source order of the map. -/
def setup0 : State := placePieces asciiLower (fun _ => pieceMap) init

/-! ## The swap-and-truncate loop -/

section Loop

variable {α : Type} (hit : α → Bool)

theorem getElem?_append_cons_at (l₁ l₂ : List α) (y : α) :
    (l₁ ++ y :: l₂)[l₁.length]? = some y := by
  rw [List.getElem?_append_right (Nat.le_refl _)]; simp

theorem getElem?_append_cons_after (l₁ l₂ : List α) (y : α) (d : Nat) :
    (l₁ ++ y :: l₂)[l₁.length + 1 + d]? = l₂[d]? := by
  rw [List.getElem?_append_right (by omega)]
  have e : l₁.length + 1 + d - l₁.length = d + 1 := by omega
  rw [e, List.getElem?_cons_succ]

theorem getElem?_append_cons_last (l₁ l₂ : List α) (x : α) :
    (l₁ ++ x :: l₂)[l₁.length + l₂.length]? = some (l₂.getLastD x) := by
  cases l₂ using List.reverseRecOn with
  | nil => simp
  | append_singleton l z =>
    have e : l₁ ++ x :: (l ++ [z]) = (l₁ ++ x :: l) ++ [z] := by simp
    have e2 : l₁.length + (l ++ [z]).length = (l₁ ++ x :: l).length := by
      simp
    rw [e, e2, getElem?_append_cons_at]
    simp [List.getLastD_eq_getLast?]

/-- Iterations over entries that are not hit change nothing. -/
theorem rangeSwapTruncate_skip (k₂ : Nat) :
    ∀ (k₁ i : Nat) (arr : List α) (len : Nat),
      (∀ d, d < k₁ → ∃ x, arr[i + d]? = some x ∧ hit x = false) →
      rangeSwapTruncate hit (k₁ + k₂) i arr len = rangeSwapTruncate hit k₂ (i + k₁) arr len := by
  intro k₁
  induction k₁ with
  | zero => intro i arr len _; simp
  | succ k ih =>
    intro i arr len h
    obtain ⟨x, hx, hnx⟩ := h 0 (by omega)
    have e : k + 1 + k₂ = (k + k₂) + 1 := by omega
    rw [e, rangeSwapTruncate]
    rw [Nat.add_zero] at hx
    simp only [hx, hnx, Bool.false_eq_true, if_false]
    rw [ih (i + 1) arr len (fun d hd => by
      have := h (d + 1) (by omega)
      rwa [show i + (d + 1) = i + 1 + d by omega] at this)]
    congr 1
    omega

/-- A loop over a slice without any hit returns the slice. -/
theorem rangeLoop_of_no_hit (xs : List α) (h : ∀ x ∈ xs, hit x = false) :
    rangeLoop hit xs = some xs := by
  have := rangeSwapTruncate_skip hit 0 xs.length 0 xs xs.length (by
    intro d hd
    rw [Nat.zero_add]
    exact ⟨xs[d], List.getElem?_eq_getElem hd, h _ (List.getElem_mem hd)⟩)
  simp only [Nat.add_zero, Nat.zero_add] at this
  simp [rangeLoop, this, rangeSwapTruncate]

/-- The loop over a slice with exactly one hit, on the backing array. -/
theorem rangeSwapTruncate_of_one_hit (l₁ l₂ : List α) (x : α) (hx : hit x = true)
    (h₁ : ∀ y ∈ l₁, hit y = false) (h₂ : ∀ y ∈ l₂, hit y = false) :
    rangeSwapTruncate hit (l₁.length + (l₂.length + 1)) 0 (l₁ ++ x :: l₂)
        (l₁.length + l₂.length + 1)
      = some (l₁ ++ l₂.getLastD x :: l₂, l₁.length + l₂.length) := by
  rw [rangeSwapTruncate_skip hit (l₂.length + 1) l₁.length 0 (l₁ ++ x :: l₂) _ (by
      intro d hd
      rw [Nat.zero_add]
      refine ⟨l₁[d], ?_, h₁ _ (List.getElem_mem hd)⟩
      rw [List.getElem?_append_left hd]
      exact List.getElem?_eq_getElem hd)]
  rw [Nat.zero_add, rangeSwapTruncate, getElem?_append_cons_at]
  have hlt : l₁.length < l₁.length + l₂.length + 1 := by omega
  have hset : (l₁ ++ x :: l₂).set l₁.length (l₂.getLastD x) = l₁ ++ l₂.getLastD x :: l₂ := by
    simp [List.set_append]
  simp only [hx, if_true, hlt, Nat.add_sub_cancel, getElem?_append_cons_last, hset]
  have hpost := rangeSwapTruncate_skip hit 0 l₂.length (l₁.length + 1)
    (l₁ ++ l₂.getLastD x :: l₂) (l₁.length + l₂.length) (by
      intro d hd
      refine ⟨l₂[d], ?_, h₂ _ (List.getElem_mem hd)⟩
      rw [getElem?_append_cons_after]
      exact List.getElem?_eq_getElem hd)
  rw [Nat.add_zero] at hpost
  rw [hpost, rangeSwapTruncate]

/-- A loop over a slice with exactly one hit moves the last entry into the
place of the hit and drops the last slot. -/
theorem rangeLoop_of_one_hit (l₁ l₂ : List α) (x : α) (hx : hit x = true)
    (h₁ : ∀ y ∈ l₁, hit y = false) (h₂ : ∀ y ∈ l₂, hit y = false) :
    rangeLoop hit (l₁ ++ x :: l₂) = some (l₁ ++ (l₂.getLastD x :: l₂).dropLast) := by
  have hlen : (l₁ ++ x :: l₂).length = l₁.length + (l₂.length + 1) := by simp
  unfold rangeLoop
  rw [hlen]
  have := rangeSwapTruncate_of_one_hit hit l₁ l₂ x hx h₁ h₂
  rw [Nat.add_assoc] at this
  rw [this]
  simp only [Option.map_some', Option.some.injEq]
  rw [List.take_append_eq_append_take, List.dropLast_eq_take]
  simp

/-- Every entry of the backing array after the loop was in it before. -/
theorem rangeSwapTruncate_mem :
    ∀ (k i : Nat) (arr : List α) (len : Nat) (r : List α × Nat),
      rangeSwapTruncate hit k i arr len = some r → ∀ x ∈ r.1, x ∈ arr := by
  intro k
  induction k with
  | zero =>
    intro i arr len r h x hx
    simp only [rangeSwapTruncate, Option.some.injEq] at h
    subst h
    exact hx
  | succ k ih =>
    intro i arr len r h x hx
    rw [rangeSwapTruncate] at h
    cases hi : arr[i]? with
    | none => simp [hi] at h
    | some a =>
      simp only [hi] at h
      by_cases ha : hit a = true
      · simp only [ha, if_true] at h
        by_cases hlt : i < len
        · simp only [hlt, if_true] at h
          cases hl : arr[len - 1]? with
          | none => simp [hl] at h
          | some y =>
            simp only [hl] at h
            rcases List.mem_or_eq_of_mem_set (ih _ _ _ _ h x hx) with hm | hm
            · exact hm
            · subst hm
              exact List.mem_iff_getElem?.2 ⟨_, hl⟩
        · simp [hlt] at h
      · simp only [ha, Bool.false_eq_true, if_false] at h
        exact ih _ _ _ _ h x hx

/-- The loop invariant behind `rangeLoop_no_hit_left`: a hit entry that sits
in the visited part of the current slice was copied from a slot that the
loop has yet to visit and that lies outside the current slice, where the
loop will panic. -/
theorem rangeSwapTruncate_sound :
    ∀ (k i : Nat) (arr : List α) (len : Nat) (r : List α × Nat),
      rangeSwapTruncate hit k i arr len = some r →
      i + k = arr.length → len ≤ arr.length →
      (∀ j x, j < i → j < len → arr[j]? = some x → hit x = true →
        ∃ m y, len ≤ m ∧ i ≤ m ∧ arr[m]? = some y ∧ hit y = true) →
      ∀ x ∈ r.1.take r.2, hit x = false := by
  intro k
  induction k with
  | zero =>
    intro i arr len r h hik hlen inv x hx
    simp only [rangeSwapTruncate, Option.some.injEq] at h
    subst h
    obtain ⟨j, hj⟩ := List.mem_iff_getElem?.1 hx
    rw [List.getElem?_take] at hj
    by_cases hjl : j < len
    · simp only [hjl, if_true] at hj
      cases hh : hit x with
      | false => rfl
      | true =>
        obtain ⟨m, y, _, hm, hy, _⟩ := inv j x (by omega) hjl hj hh
        rw [List.getElem?_eq_none (by omega)] at hy
        exact absurd hy (by simp)
    · simp [hjl] at hj
  | succ k ih =>
    intro i arr len r h hik hlen inv
    rw [rangeSwapTruncate] at h
    cases hi : arr[i]? with
    | none => simp [hi] at h
    | some a =>
      simp only [hi] at h
      by_cases ha : hit a = true
      · simp only [ha, if_true] at h
        by_cases hlt : i < len
        · simp only [hlt, if_true] at h
          cases hl : arr[len - 1]? with
          | none => simp [hl] at h
          | some y =>
            simp only [hl] at h
            refine ih _ _ _ _ h (by simp; omega) (by simp; omega) ?_
            intro j x hj1 hj2 hjx hx
            by_cases hji : j = i
            · subst hji
              rw [List.getElem?_set_self (by omega)] at hjx
              simp only [Option.some.injEq] at hjx
              subst hjx
              refine ⟨len - 1, y, Nat.le_refl _, by omega, ?_, hx⟩
              rw [List.getElem?_set_ne (by omega)]
              exact hl
            · rw [List.getElem?_set_ne (by omega)] at hjx
              obtain ⟨m, z, hm1, hm2, hm3, hm4⟩ := inv j x (by omega) (by omega) hjx hx
              refine ⟨m, z, by omega, by omega, ?_, hm4⟩
              rw [List.getElem?_set_ne (by omega)]
              exact hm3
        · simp [hlt] at h
      · simp only [ha, Bool.false_eq_true, if_false] at h
        refine ih _ _ _ _ h (by omega) hlen ?_
        intro j x hj1 hj2 hjx hx
        by_cases hji : j = i
        · subst hji
          rw [hi] at hjx
          simp only [Option.some.injEq] at hjx
          subst hjx
          exact absurd hx ha
        · obtain ⟨m, z, hm1, hm2, hm3, hm4⟩ := inv j x (by omega) hj2 hjx hx
          refine ⟨m, z, hm1, ?_, hm3, hm4⟩
          by_cases hmi : m = i
          · subst hmi
            rw [hi] at hm3
            simp only [Option.some.injEq] at hm3
            subst hm3
            exact absurd hm4 ha
          · omega

/-- When the loop completes, no hit is left in the slice. -/
theorem rangeLoop_no_hit_left (xs ys : List α) (h : rangeLoop hit xs = some ys) :
    ∀ x ∈ ys, hit x = false := by
  unfold rangeLoop at h
  cases hr : rangeSwapTruncate hit xs.length 0 xs xs.length with
  | none => simp [hr] at h
  | some r =>
    simp only [hr, Option.map_some', Option.some.injEq] at h
    subst h
    exact rangeSwapTruncate_sound hit _ _ _ _ r hr (by simp) (Nat.le_refl _)
      (fun j x hj => absurd hj (by omega))

/-- When the loop completes, the slice holds only entries it held before. -/
theorem rangeLoop_subset (xs ys : List α) (h : rangeLoop hit xs = some ys) :
    ∀ x ∈ ys, x ∈ xs := by
  unfold rangeLoop at h
  cases hr : rangeSwapTruncate hit xs.length 0 xs xs.length with
  | none => simp [hr] at h
  | some r =>
    simp only [hr, Option.map_some', Option.some.injEq] at h
    subst h
    intro x hx
    exact rangeSwapTruncate_mem hit _ _ _ _ r hr x (List.mem_of_mem_take hx)

/-- A slice with exactly one hit splits around it. -/
theorem exists_split_of_countP_eq_one :
    ∀ (xs : List α), xs.countP hit = 1 →
      ∃ l₁ x l₂, xs = l₁ ++ x :: l₂ ∧ hit x = true ∧
        (∀ y ∈ l₁, hit y = false) ∧ (∀ y ∈ l₂, hit y = false) := by
  intro xs
  induction xs with
  | nil => intro h; simp at h
  | cons a l ih =>
    intro h
    rw [List.countP_cons] at h
    by_cases ha : hit a = true
    · simp only [ha, if_true] at h
      have h0 : l.countP hit = 0 := by omega
      refine ⟨[], a, l, rfl, ha, by simp, ?_⟩
      intro y hy
      have := (List.countP_eq_zero.1 h0) y hy
      simpa using this
    · simp only [ha, Bool.false_eq_true, if_false, Nat.add_zero] at h
      obtain ⟨l₁, x, l₂, e, hx, h₁, h₂⟩ := ih h
      refine ⟨a :: l₁, x, l₂, by simp [e], hx, ?_, h₂⟩
      intro y hy
      rcases List.mem_cons.1 hy with rfl | hy
      · simpa using ha
      · exact h₁ y hy

/-- Moving the last entry to the front and dropping the last slot permutes. -/
theorem dropLast_getLastD_cons_perm (l : List α) (x : α) :
    (l.getLastD x :: l).dropLast.Perm l := by
  cases l using List.reverseRecOn with
  | nil => simp
  | append_singleton l z =>
    have e : (l ++ [z]).getLastD x :: (l ++ [z]) = (z :: l) ++ [z] := by
      simp [List.getLastD_eq_getLast?]
    rw [e, List.dropLast_concat]
    exact (List.perm_append_singleton z l).symm

/-- On a slice with at most one hit the loop completes, removes the hit and
keeps every other entry. -/
theorem rangeLoop_at_most_one_hit (xs : List α) (h : xs.countP hit ≤ 1) :
    ∃ ys, rangeLoop hit xs = some ys ∧ (∀ y ∈ ys, hit y = false) ∧
      ys.length + xs.countP hit = xs.length ∧
      ys.Perm (xs.filter (fun a => !hit a)) := by
  rcases Nat.eq_zero_or_pos (xs.countP hit) with h0 | hpos
  · have hno : ∀ x ∈ xs, hit x = false := by
      intro x hx
      simpa using (List.countP_eq_zero.1 h0) x hx
    refine ⟨xs, rangeLoop_of_no_hit hit xs hno, hno, by omega, ?_⟩
    rw [List.filter_eq_self.2 (fun a ha => by simp [hno a ha])]
  · have h1 : xs.countP hit = 1 := by omega
    obtain ⟨l₁, x, l₂, e, hx, h₁, h₂⟩ := exists_split_of_countP_eq_one hit xs h1
    subst e
    refine ⟨_, rangeLoop_of_one_hit hit l₁ l₂ x hx h₁ h₂, ?_, ?_, ?_⟩
    · intro y hy
      rcases List.mem_append.1 hy with hy | hy
      · exact h₁ y hy
      · exact h₂ y ((dropLast_getLastD_cons_perm l₂ x).subset hy)
    · rw [h1]
      simp
      omega
    · have hf : (l₁ ++ x :: l₂).filter (fun a => !hit a) = l₁ ++ l₂ := by
        rw [List.filter_append, List.filter_cons]
        simp only [hx, Bool.not_true, Bool.false_eq_true, if_false]
        rw [List.filter_eq_self.2 (fun a ha => by simp [h₁ a ha]),
          List.filter_eq_self.2 (fun a ha => by simp [h₂ a ha])]
      rw [hf]
      exact List.Perm.append_left l₁ (dropLast_getLastD_cons_perm l₂ x)

end Loop

/-! ## Claims -/

/-- C9: on every roster with at most one king (at any index) the first loop
of `KillKing` completes; the roster it leaves has no king, is shorter by
exactly the number of kings and is a permutation of the original non-king
pieces; `GetAvailability` is then false, a second run of the loop leaves the
roster unchanged, and `KillKing` as a whole stores this roster in the player
object and goes on to the loop over `sessionPlayers`. -/
theorem KillKing_removes_only_the_king (lower : String → String) (ps : List piece)
    (h : ps.countP (isKing lower) ≤ 1) :
    ∃ ps', KillKing_roster lower ps = some ps' ∧
      (∀ p ∈ ps', isKing lower p = false) ∧
      ps'.length + ps.countP (isKing lower) = ps.length ∧
      ps'.Perm (ps.filter (fun p => !isKing lower p)) ∧
      (∀ name color : String,
        chessPlayer.GetAvailability lower
          { name := name, color := color, playablePieces := ps' } = false) ∧
      KillKing_roster lower ps' = some ps' ∧
      (∀ (s : State) (who : PlayerRef), (s.get who).playablePieces = ps →
        KillKing lower who s =
          (KillKing_session (s.set who { s.get who with playablePieces := ps' })
              (s.get who).name).map
            (fun sp => ({ s.set who { s.get who with playablePieces := ps' } with
                            sessionPlayers := sp }, true))) := by
  obtain ⟨ps', h1, h2, h3, h4⟩ := rangeLoop_at_most_one_hit (isKing lower) ps h
  refine ⟨ps', h1, h2, h3, h4, ?_, rangeLoop_of_no_hit _ ps' h2, ?_⟩
  · intro name color
    simp only [chessPlayer.GetAvailability]
    rw [Bool.eq_false_iff]
    intro hany
    obtain ⟨p, hp, hk⟩ := List.any_eq_true.1 hany
    rw [h2 p hp] at hk
    exact absurd hk (by simp)
  · intro s who hs
    have h1' : KillKing_roster lower (s.get who).playablePieces = some ps' := by
      rw [hs]; exact h1
    simp only [KillKing, h1']
    cases KillKing_session (s.set who { s.get who with playablePieces := ps' })
      (s.get who).name <;> rfl

/-- C9, at a roster whose only king is its first piece. -/
theorem KillKing_removes_only_the_king_witness :
    [newPiece asciiLower "White" "King",
        newPiece asciiLower "White" "pawn"].countP (isKing asciiLower) ≤ 1 ∧
    ∃ ps', KillKing_roster asciiLower
        [newPiece asciiLower "White" "King", newPiece asciiLower "White" "pawn"] = some ps' ∧
      (∀ p ∈ ps', isKing asciiLower p = false) ∧
      ps'.length + [newPiece asciiLower "White" "King",
          newPiece asciiLower "White" "pawn"].countP (isKing asciiLower) = 2 :=
  ⟨by decide,
    let ⟨ps', h1, h2, h3, _⟩ := KillKing_removes_only_the_king asciiLower
      [newPiece asciiLower "White" "King", newPiece asciiLower "White" "pawn"] (by decide)
    ⟨ps', h1, h2, h3⟩⟩

/-! ### State bookkeeping -/

theorem State.get_set_self (s : State) (r : PlayerRef) (v : chessPlayer) :
    (s.set r v).get r = v := by
  cases r <;> rfl

theorem State.get_set_other (s : State) (r : PlayerRef) (v : chessPlayer) :
    (s.set r v).get r.other = s.get r.other := by
  cases r <;> rfl

theorem State.get_set_ne (s : State) (r q : PlayerRef) (v : chessPlayer) (h : q ≠ r) :
    (s.set r v).get q = s.get q := by
  cases r <;> cases q <;> first | rfl | exact absurd rfl h

theorem State.sessionPlayers_set (s : State) (r : PlayerRef) (v : chessPlayer) :
    (s.set r v).sessionPlayers = s.sessionPlayers := by
  cases r <;> rfl

theorem State.set_set (s : State) (r : PlayerRef) (v w : chessPlayer) :
    (s.set r v).set r w = s.set r w := by
  cases r <;> rfl

theorem State.set_get (s : State) (r : PlayerRef) : s.set r (s.get r) = s := by
  cases r <;> rfl

theorem CreatePieces.loop_eq (lower : String → String) (color pName : String) :
    ∀ (n : Nat) (ps : List piece),
      CreatePieces.loop lower color pName n ps
        = ps ++ List.replicate n (newPiece lower color pName) := by
  intro n
  induction n with
  | zero => intro ps; simp [CreatePieces.loop]
  | succ n ih =>
    intro ps
    rw [CreatePieces.loop, ih, List.replicate_succ, List.append_assoc]
    rfl

/-- C7: for every player, kind name and count, `CreatePieces` returns true
and appends exactly `max pCount 0` pieces to the end of the roster of the
player, each named by the lower-cased kind, of the color of the player and
with `exist = true`; the earlier pieces stay in place, and neither the name
or color of the player, nor the other player, nor `sessionPlayers` changes. -/
theorem CreatePieces_postcondition (lower : String → String) (who : PlayerRef)
    (pName : String) (pCount : Int) (s : State) :
    (CreatePieces lower who pName pCount s).2 = true ∧
    (∃ added : List piece,
      ((CreatePieces lower who pName pCount s).1.get who).playablePieces
        = (s.get who).playablePieces ++ added ∧
      (added.length : Int) = max pCount 0 ∧
      ∀ p ∈ added, p.name = lower pName ∧ p.color = (s.get who).color ∧ p.exist = true) ∧
    ((CreatePieces lower who pName pCount s).1.get who).name = (s.get who).name ∧
    ((CreatePieces lower who pName pCount s).1.get who).color = (s.get who).color ∧
    (CreatePieces lower who pName pCount s).1.get who.other = s.get who.other ∧
    (CreatePieces lower who pName pCount s).1.sessionPlayers = s.sessionPlayers := by
  refine ⟨rfl, ⟨List.replicate pCount.toNat (newPiece lower (s.get who).color pName),
    ?_, ?_, ?_⟩, ?_, ?_, ?_, ?_⟩
  · simp only [CreatePieces, State.get_set_self, CreatePieces.loop_eq]
  · rw [List.length_replicate]
    omega
  · intro p hp
    rw [List.eq_of_mem_replicate hp]
    exact ⟨rfl, rfl, rfl⟩
  · simp only [CreatePieces, State.get_set_self]
  · simp only [CreatePieces, State.get_set_self]
  · simp only [CreatePieces, State.get_set_other]
  · simp only [CreatePieces, State.sessionPlayers_set]

/-! ### Session set-up -/

theorem placePieces.inner_eq (lower : String → String) (plr : PlayerRef) :
    ∀ (order : List (String × Int)) (s : State),
      placePieces.inner lower plr order s
        = s.set plr { s.get plr with playablePieces :=
            (s.get plr).playablePieces ++ piecesOf lower (s.get plr).color order } := by
  intro order
  induction order with
  | nil =>
    intro s
    simp only [placePieces.inner, piecesOf, List.flatMap_nil, List.append_nil]
    exact (State.set_get s plr).symm
  | cons e rest ih =>
    intro s
    obtain ⟨pieceName, pieceCount⟩ := e
    rw [placePieces.inner, ih]
    simp only [CreatePieces, State.get_set_self, State.set_set, CreatePieces.loop_eq,
      piecesOf, List.flatMap_cons, List.append_assoc]

theorem placePieces_init (lower : String → String) (orders : Nat → List (String × Int)) :
    placePieces lower orders init =
      { player1 := { name := "Garry Kasparov", color := "White",
                     playablePieces := piecesOf lower "White" (orders 0) }
        player2 := { name := "Deep Blue", color := "Black",
                     playablePieces := piecesOf lower "Black" (orders 1) }
        sessionPlayers := [.p1, .p2] } := by
  simp only [placePieces, init, placePieces.outer, placePieces.inner_eq]
  simp [State.set, State.get]

theorem piecesOf_perm (lower : String → String) (color : String)
    (order : List (String × Int)) (ho : order.Perm pieceMap) :
    (piecesOf lower color order).Perm (piecesOf lower color pieceMap) :=
  List.Perm.flatMap_right _ ho

/-- The roster created from the map in source order, when lower-casing fixes
the six keys. -/
theorem piecesOf_pieceMap (lower : String → String)
    (hl : ∀ e ∈ pieceMap, lower e.1 = e.1) (color : String) :
    piecesOf lower color pieceMap = piecesOf (fun n => n) color pieceMap := by
  have h1 : lower "king" = "king" := hl ("king", 1) (by simp [pieceMap])
  have h2 : lower "queen" = "queen" := hl ("queen", 1) (by simp [pieceMap])
  have h3 : lower "rook" = "rook" := hl ("rook", 2) (by simp [pieceMap])
  have h4 : lower "bishop" = "bishop" := hl ("bishop", 2) (by simp [pieceMap])
  have h5 : lower "knight" = "knight" := hl ("knight", 2) (by simp [pieceMap])
  have h6 : lower "pawn" = "pawn" := hl ("pawn", 8) (by simp [pieceMap])
  simp only [piecesOf, pieceMap, List.flatMap_cons, List.flatMap_nil, newPiece,
    h1, h2, h3, h4, h5, h6]

/-- The kings of a set-up roster: exactly one, whatever the order. -/
theorem piecesOf_countP_isKing (lower : String → String)
    (hl : ∀ e ∈ pieceMap, lower e.1 = e.1) (color : String)
    (order : List (String × Int)) (ho : order.Perm pieceMap) :
    (piecesOf lower color order).countP (isKing lower) = 1 := by
  have h1 : lower "king" = "king" := hl ("king", 1) (by simp [pieceMap])
  have h2 : lower "queen" = "queen" := hl ("queen", 1) (by simp [pieceMap])
  have h3 : lower "rook" = "rook" := hl ("rook", 2) (by simp [pieceMap])
  have h4 : lower "bishop" = "bishop" := hl ("bishop", 2) (by simp [pieceMap])
  have h5 : lower "knight" = "knight" := hl ("knight", 2) (by simp [pieceMap])
  have h6 : lower "pawn" = "pawn" := hl ("pawn", 8) (by simp [pieceMap])
  rw [(piecesOf_perm lower color order ho).countP_eq, piecesOf_pieceMap lower hl]
  simp only [piecesOf, pieceMap, List.flatMap_cons, List.flatMap_nil, newPiece,
    List.countP_append, List.countP_replicate, List.countP_nil, isKing,
    h1, h2, h3, h4, h5, h6]
  decide

theorem piecesOf_color (lower : String → String) (color : String)
    (order : List (String × Int)) :
    ∀ p ∈ piecesOf lower color order,
      p.color = color ∧ p.exist = true ∧ p.currentPosition = "a1" := by
  intro p hp
  obtain ⟨e, _, he⟩ := List.mem_flatMap.1 hp
  rw [List.eq_of_mem_replicate he]
  exact ⟨rfl, rfl, rfl⟩

theorem piecesOf_census (lower : String → String)
    (hl : ∀ e ∈ pieceMap, lower e.1 = e.1) (color : String)
    (order : List (String × Int)) (ho : order.Perm pieceMap) :
    (piecesOf lower color order).length = 16 ∧
    countNamed (piecesOf lower color order) "king" = 1 ∧
    countNamed (piecesOf lower color order) "queen" = 1 ∧
    countNamed (piecesOf lower color order) "rook" = 2 ∧
    countNamed (piecesOf lower color order) "bishop" = 2 ∧
    countNamed (piecesOf lower color order) "knight" = 2 ∧
    countNamed (piecesOf lower color order) "pawn" = 8 := by
  have hp := piecesOf_perm lower color order ho
  simp only [countNamed, hp.length_eq, hp.countP_eq, piecesOf_pieceMap lower hl]
  simp only [piecesOf, pieceMap, List.flatMap_cons, List.flatMap_nil, newPiece,
    List.countP_append, List.countP_replicate, List.countP_nil, List.length_append,
    List.length_replicate, List.length_nil]
  simp

/-- C8: from the state after `init`, one call of `placePieces` leaves each
player with exactly 16 pieces: 1 king, 1 queen, 2 rooks, 2 bishops, 2 knights
and 8 pawns, each of the color of its owner; for any two iteration orders of
`pieceMap` the rosters are permutations of each other. -/
theorem placePieces_standard_roster (lower : String → String)
    (hl : ∀ e ∈ pieceMap, lower e.1 = e.1)
    (orders orders' : Nat → List (String × Int))
    (ho : ∀ i, (orders i).Perm pieceMap) (ho' : ∀ i, (orders' i).Perm pieceMap)
    (who : PlayerRef) :
    (init.get who).playablePieces = [] ∧ init.sessionPlayers = [.p1, .p2] ∧
    ((placePieces lower orders init).get who).playablePieces.length = 16 ∧
    countNamed ((placePieces lower orders init).get who).playablePieces "king" = 1 ∧
    countNamed ((placePieces lower orders init).get who).playablePieces "queen" = 1 ∧
    countNamed ((placePieces lower orders init).get who).playablePieces "rook" = 2 ∧
    countNamed ((placePieces lower orders init).get who).playablePieces "bishop" = 2 ∧
    countNamed ((placePieces lower orders init).get who).playablePieces "knight" = 2 ∧
    countNamed ((placePieces lower orders init).get who).playablePieces "pawn" = 8 ∧
    (∀ p ∈ ((placePieces lower orders init).get who).playablePieces,
      p.color = ((placePieces lower orders init).get who).color) ∧
    ((placePieces lower orders init).get who).color = (init.get who).color ∧
    (((placePieces lower orders init).get who).playablePieces).Perm
      ((placePieces lower orders' init).get who).playablePieces := by
  refine ⟨by cases who <;> rfl, rfl, ?_⟩
  rw [placePieces_init, placePieces_init]
  cases who
  · obtain ⟨c0, c1, c2, c3, c4, c5, c6⟩ := piecesOf_census lower hl "White" _ (ho 0)
    exact ⟨c0, c1, c2, c3, c4, c5, c6,
      fun p hp => (piecesOf_color lower "White" _ p hp).1, rfl,
      (piecesOf_perm lower "White" _ (ho 0)).trans
        (piecesOf_perm lower "White" _ (ho' 0)).symm⟩
  · obtain ⟨c0, c1, c2, c3, c4, c5, c6⟩ := piecesOf_census lower hl "Black" _ (ho 1)
    exact ⟨c0, c1, c2, c3, c4, c5, c6,
      fun p hp => (piecesOf_color lower "Black" _ p hp).1, rfl,
      (piecesOf_perm lower "Black" _ (ho 1)).trans
        (piecesOf_perm lower "Black" _ (ho' 1)).symm⟩

theorem asciiLower_pieceMap : ∀ e ∈ pieceMap, asciiLower e.1 = e.1 := by
  decide

/-- C8, for ASCII lower-casing, the source order of the map and its reverse. -/
theorem placePieces_standard_roster_witness :
    (∀ e ∈ pieceMap, asciiLower e.1 = e.1) ∧
    (∀ i : Nat, ((fun _ => pieceMap) i : List (String × Int)).Perm pieceMap) ∧
    (∀ i : Nat, ((fun _ => pieceMap.reverse) i : List (String × Int)).Perm pieceMap) ∧
    ((placePieces asciiLower (fun _ => pieceMap) init).get .p1).playablePieces.length = 16 ∧
    (((placePieces asciiLower (fun _ => pieceMap) init).get .p1).playablePieces).Perm
      ((placePieces asciiLower (fun _ => pieceMap.reverse) init).get .p1).playablePieces :=
  have h := placePieces_standard_roster asciiLower asciiLower_pieceMap
    (fun _ => pieceMap) (fun _ => pieceMap.reverse)
    (fun _ => List.Perm.refl _) (fun _ => List.reverse_perm _) .p1
  ⟨asciiLower_pieceMap, fun _ => List.Perm.refl _, fun _ => List.reverse_perm _,
    h.2.2.1, h.2.2.2.2.2.2.2.2.2.2.2⟩

/-! ### Game end -/

theorem GetAvailability_iff (lower : String → String) (v : chessPlayer) :
    v.GetAvailability lower = true ↔ 0 < v.playablePieces.countP (isKing lower) := by
  rw [chessPlayer.GetAvailability, List.any_eq_true, List.countP_pos_iff]

theorem GetAvailability_false_iff (lower : String → String) (v : chessPlayer) :
    v.GetAvailability lower = false ↔ v.playablePieces.countP (isKing lower) = 0 := by
  rw [← Bool.not_eq_true, GetAvailability_iff]
  omega

theorem IsGameEnded_false_iff (lower : String → String) (s : State) :
    IsGameEnded lower s = false ↔
      s.player1.GetAvailability lower = true ∧ s.player2.GetAvailability lower = true := by
  unfold IsGameEnded
  cases s.player1.GetAvailability lower <;> cases s.player2.GetAvailability lower <;> simp

theorem IsGameEnded_true_iff (lower : String → String) (s : State) :
    IsGameEnded lower s = true ↔
      s.player1.GetAvailability lower = false ∨ s.player2.GetAvailability lower = false := by
  unfold IsGameEnded
  cases s.player1.GetAvailability lower <;> cases s.player2.GetAvailability lower <;> simp

/-- C1: in a session set up by `init` and one `placePieces`, whatever the
iteration orders of the map, `IsGameEnded` is false; after `KillKing` by
either player, `KillKing` has returned true, `IsGameEnded` is true and
`sessionPlayers` holds exactly the other player, whose name is the one
given by `init`. -/
theorem king_loss_ends_game (lower : String → String)
    (hl : ∀ e ∈ pieceMap, lower e.1 = e.1) (orders : Nat → List (String × Int))
    (ho : ∀ i, (orders i).Perm pieceMap) (who : PlayerRef) :
    IsGameEnded lower (placePieces lower orders init) = false ∧
    ∃ s', KillKing lower who (placePieces lower orders init) = some (s', true) ∧
      IsGameEnded lower s' = true ∧
      s'.sessionPlayers = [who.other] ∧
      s'.sessionPlayers[0]? = some who.other ∧
      (s'.get who.other).GetName = (init.get who.other).GetName := by
  have k1 := piecesOf_countP_isKing lower hl "White" (orders 0) (ho 0)
  have k2 := piecesOf_countP_isKing lower hl "Black" (orders 1) (ho 1)
  rw [placePieces_init]
  constructor
  · rw [IsGameEnded_false_iff, GetAvailability_iff, GetAvailability_iff]
    simp only [k1, k2]
    decide
  · cases who
    · obtain ⟨ps', h1, h2, _, _⟩ :=
        rangeLoop_at_most_one_hit (isKing lower) (piecesOf lower "White" (orders 0))
          (by omega)
      refine ⟨{ player1 := { name := "Garry Kasparov", color := "White",
                             playablePieces := ps' }
                player2 := { name := "Deep Blue", color := "Black",
                             playablePieces := piecesOf lower "Black" (orders 1) }
                sessionPlayers := [.p2] }, ?_, ?_, rfl, rfl, rfl⟩
      · simp only [KillKing, State.get, KillKing_roster, h1]
        simp [KillKing_session, rangeLoop, rangeSwapTruncate, State.get, State.set,
          chessPlayer.GetName]
      · rw [IsGameEnded_true_iff]
        left
        rw [GetAvailability_false_iff]
        exact List.countP_eq_zero.2 (fun p hp => by simp [h2 p hp])
    · obtain ⟨ps', h1, h2, _, _⟩ :=
        rangeLoop_at_most_one_hit (isKing lower) (piecesOf lower "Black" (orders 1))
          (by omega)
      refine ⟨{ player1 := { name := "Garry Kasparov", color := "White",
                             playablePieces := piecesOf lower "White" (orders 0) }
                player2 := { name := "Deep Blue", color := "Black",
                             playablePieces := ps' }
                sessionPlayers := [.p1] }, ?_, ?_, rfl, rfl, rfl⟩
      · simp only [KillKing, State.get, KillKing_roster, h1]
        simp [KillKing_session, rangeLoop, rangeSwapTruncate, State.get, State.set,
          chessPlayer.GetName]
      · rw [IsGameEnded_true_iff]
        right
        rw [GetAvailability_false_iff]
        exact List.countP_eq_zero.2 (fun p hp => by simp [h2 p hp])

/-- C1, for ASCII lower-casing, the source order of the map and White
losing the king. -/
theorem king_loss_ends_game_witness :
    (∀ e ∈ pieceMap, asciiLower e.1 = e.1) ∧
    (∀ i : Nat, ((fun _ => pieceMap) i : List (String × Int)).Perm pieceMap) ∧
    IsGameEnded asciiLower (placePieces asciiLower (fun _ => pieceMap) init) = false ∧
    ∃ s', KillKing asciiLower .p1 (placePieces asciiLower (fun _ => pieceMap) init)
        = some (s', true) ∧
      IsGameEnded asciiLower s' = true ∧ s'.sessionPlayers = [.p2] :=
  have h := king_loss_ends_game asciiLower asciiLower_pieceMap (fun _ => pieceMap)
    (fun _ => List.Perm.refl _) .p1
  ⟨asciiLower_pieceMap, fun _ => List.Perm.refl _, h.1,
    let ⟨s', h1, h2, h3, _⟩ := h.2
    ⟨s', h1, h2, h3⟩⟩

/-! ### Moves -/

/-- In a game that has not ended `MovePiece` reports the move as made,
returns nil and leaves the state as it was. -/
theorem MovePiece_of_not_ended (lower title : String → String) (v : chessPlayer)
    (pName location : String) (s : State) (h : IsGameEnded lower s = false) :
    MovePiece lower title v pName location s =
      some { state := s
             err := none
             out := ["Player " ++ v.name ++ " is moving " ++ title pName ++ " to "
                       ++ location ++ ".\n",
                     title pName ++ " moved to " ++ location ++ ".\n"] } := by
  simp [MovePiece, h, gameCoordinator]

theorem IsGameEnded_setup (lower : String → String)
    (hl : ∀ e ∈ pieceMap, lower e.1 = e.1) (orders : Nat → List (String × Int))
    (ho : ∀ i, (orders i).Perm pieceMap) :
    IsGameEnded lower (placePieces lower orders init) = false := by
  have k1 := piecesOf_countP_isKing lower hl "White" (orders 0) (ho 0)
  have k2 := piecesOf_countP_isKing lower hl "Black" (orders 1) (ho 1)
  rw [placePieces_init, IsGameEnded_false_iff, GetAvailability_iff, GetAvailability_iff]
  simp only [k1, k2]
  decide

/-- C2, at the failing input: after set-up, `KillKing` by both players
leaves `sessionPlayers` empty while `IsGameEnded` is true, and `MovePiece`
then panics on `sessionPlayers[0]` instead of returning an error. -/
theorem MovePiece_panics_when_session_empty :
    ∃ s, run asciiLower asciiTitle [.KillKing .p1, .KillKing .p2] setup0 = some s ∧
      s.sessionPlayers = [] ∧ IsGameEnded asciiLower s = true ∧
      MovePiece asciiLower asciiTitle (s.get .p1) "queen" "f6" s = none ∧
      MovePiece asciiLower asciiTitle (s.get .p2) "queen" "f6" s = none := by
  decide

/-- C10, at the failing input: on a roster of two kings, as made by
`CreatePieces("king", 2)`, the loop of `KillKing` panics in its second
iteration; so does `KillKing` after two calls of `placePieces` that both
visit the king last. -/
theorem KillKing_panics_on_two_kings :
    KillKing_roster asciiLower
      [newPiece asciiLower "White" "king", newPiece asciiLower "White" "king"] = none ∧
    KillKing asciiLower .p1 (CreatePieces asciiLower .p1 "king" 2 init).1 = none ∧
    KillKing asciiLower .p1
      (placePieces asciiLower (fun _ => pieceMap.reverse)
        (placePieces asciiLower (fun _ => pieceMap.reverse) init)) = none := by
  decide

/-- C3 fails: in the set-up session a second `MovePiece` by White right after
an accepted one has the very same outcome, nil and the report of a move. -/
theorem second_move_by_White_accepted :
    ∃ r, MovePiece asciiLower asciiTitle (setup0.get .p1) "queen" "d8" setup0 = some r ∧
      r.err = none ∧
      r.out = ["Player Garry Kasparov is moving Queen to d8.\n", "Queen moved to d8.\n"] ∧
      MovePiece asciiLower asciiTitle (r.state.get .p1) "queen" "d8" r.state = some r := by
  decide

/-- C3 as amended: in a set-up session, whatever the iteration orders of the
map, a `MovePiece` by either player is accepted (nil, with the report of a
move), and a `MovePiece` by the same player right after it is accepted in
the same way: no turn order is enforced. -/
theorem MovePiece_ignores_turn_order (lower title : String → String)
    (hl : ∀ e ∈ pieceMap, lower e.1 = e.1) (orders : Nat → List (String × Int))
    (ho : ∀ i, (orders i).Perm pieceMap) (who : PlayerRef)
    (pName location pName' location' : String) :
    ∃ r r', MovePiece lower title ((placePieces lower orders init).get who) pName location
          (placePieces lower orders init) = some r ∧
      r.err = none ∧
      r.out = ["Player " ++ (init.get who).name ++ " is moving " ++ title pName ++ " to "
                 ++ location ++ ".\n",
               title pName ++ " moved to " ++ location ++ ".\n"] ∧
      MovePiece lower title (r.state.get who) pName' location' r.state = some r' ∧
      r'.err = none ∧
      r'.out = ["Player " ++ (init.get who).name ++ " is moving " ++ title pName' ++ " to "
                 ++ location' ++ ".\n",
               title pName' ++ " moved to " ++ location' ++ ".\n"] := by
  have h := IsGameEnded_setup lower hl orders ho
  have hn : ((placePieces lower orders init).get who).name = (init.get who).name := by
    rw [placePieces_init]; cases who <;> rfl
  refine ⟨_, _, MovePiece_of_not_ended lower title _ pName location _ h, rfl, ?_,
    MovePiece_of_not_ended lower title _ pName' location' _ h, rfl, ?_⟩
  · simp only [hn]
  · simp only [hn]

/-- C3 as amended, for ASCII text, the source order of the map and White
moving the queen twice. -/
theorem MovePiece_ignores_turn_order_witness :
    (∀ e ∈ pieceMap, asciiLower e.1 = e.1) ∧
    (∀ i : Nat, ((fun _ => pieceMap) i : List (String × Int)).Perm pieceMap) ∧
    ∃ r r', MovePiece asciiLower asciiTitle (setup0.get .p1) "queen" "d8" setup0 = some r ∧
      r.err = none ∧
      MovePiece asciiLower asciiTitle (r.state.get .p1) "queen" "d8" r.state = some r' ∧
      r'.err = none :=
  ⟨asciiLower_pieceMap, fun _ => List.Perm.refl _,
    let ⟨r, r', h1, h2, _, h4, h5, _⟩ :=
      MovePiece_ignores_turn_order asciiLower asciiTitle asciiLower_pieceMap
        (fun _ => pieceMap) (fun _ => List.Perm.refl _) .p1 "queen" "d8" "queen" "d8"
    ⟨r, r', h1, h2, h4, h5⟩⟩

/-- C4 fails: in the set-up session `MovePiece("queen", "f6")` by White is
reported as made, yet no queen of White stands on f6 afterwards and every
piece of White is where it was. -/
theorem moved_piece_not_relocated :
    ∃ r, MovePiece asciiLower asciiTitle (setup0.get .p1) "queen" "f6" setup0 = some r ∧
      r.err = none ∧ "Queen moved to f6.\n" ∈ r.out ∧
      gameCoordinator (setup0.get .p1) (asciiLower "queen") "f6" = "" ∧
      (¬ ∃ p ∈ (r.state.get .p1).playablePieces,
          p.name = "queen" ∧ p.currentPosition = "f6") ∧
      ∀ p ∈ (r.state.get .p1).playablePieces, p.currentPosition = "a1" := by
  decide

/-- C4 as amended: for every call of `MovePiece` in a game that has not
ended, `gameCoordinator` returns the empty string, the move is reported as
made and nil is returned, and the resulting state is the state before the
call, so that no piece has changed its `currentPosition`. -/
theorem MovePiece_leaves_state_unchanged (lower title : String → String) (v : chessPlayer)
    (pName location : String) (s : State) (h : IsGameEnded lower s = false) :
    gameCoordinator v (lower pName) location = "" ∧
    ∃ r, MovePiece lower title v pName location s = some r ∧
      r.err = none ∧
      title pName ++ " moved to " ++ location ++ ".\n" ∈ r.out ∧
      r.state = s :=
  ⟨rfl, _, MovePiece_of_not_ended lower title v pName location s h, rfl, by simp, rfl⟩

/-- C4 as amended, at the move of the White queen to f6 in the set-up session. -/
theorem MovePiece_leaves_state_unchanged_witness :
    IsGameEnded asciiLower setup0 = false ∧
    ∃ r, MovePiece asciiLower asciiTitle (setup0.get .p1) "queen" "f6" setup0 = some r ∧
      r.err = none ∧ r.state = setup0 :=
  ⟨by decide,
    let ⟨_, r, h1, h2, _, h4⟩ :=
      MovePiece_leaves_state_unchanged asciiLower asciiTitle (setup0.get .p1) "queen" "f6"
        setup0 (by decide)
    ⟨r, h1, h2, h4⟩⟩

theorem run_moves (lower title : String → String) (s : State)
    (h : IsGameEnded lower s = false) :
    ∀ moves : List (PlayerRef × String × String),
      run lower title (moves.map (fun m => Op.MovePiece m.1 m.2.1 m.2.2)) s = some s := by
  intro moves
  induction moves with
  | nil => rfl
  | cons m rest ih =>
    simp only [List.map_cons, run, step, MovePiece_of_not_ended lower title _ _ _ s h,
      Option.map_some']
    exact ih

/-- C5 fails: in the set-up session the pieces with `exist = true` do not
stand on pairwise different squares. -/
theorem setup_squares_not_unique : ¬ SquareUnique setup0 := by
  decide

/-- C5 as amended: every sequence of `MovePiece` calls from the set-up
session completes and leaves the state as set up, and in that state all 32
pieces of the two rosters have `exist = true` and stand on the one square
a1. -/
theorem all_pieces_stay_on_a1 (lower title : String → String)
    (hl : ∀ e ∈ pieceMap, lower e.1 = e.1) (orders : Nat → List (String × Int))
    (ho : ∀ i, (orders i).Perm pieceMap) (moves : List (PlayerRef × String × String)) :
    run lower title (moves.map (fun m => Op.MovePiece m.1 m.2.1 m.2.2))
        (placePieces lower orders init) = some (placePieces lower orders init) ∧
    alivePositions (placePieces lower orders init) = List.replicate 32 "a1" ∧
    ∀ who, ∀ p ∈ ((placePieces lower orders init).get who).playablePieces,
      p.exist = true ∧ p.currentPosition = "a1" := by
  refine ⟨run_moves lower title _ (IsGameEnded_setup lower hl orders ho) moves, ?_, ?_⟩
  · rw [placePieces_init]
    have c1 := (piecesOf_census lower hl "White" _ (ho 0)).1
    have c2 := (piecesOf_census lower hl "Black" _ (ho 1)).1
    have hall : ∀ p ∈ piecesOf lower "White" (orders 0) ++ piecesOf lower "Black" (orders 1),
        p.exist = true ∧ p.currentPosition = "a1" := by
      intro p hp
      rcases List.mem_append.1 hp with hp | hp
      · exact (piecesOf_color lower _ _ p hp).2
      · exact (piecesOf_color lower _ _ p hp).2
    simp only [alivePositions]
    rw [List.filter_eq_self.2 (fun p hp => (hall p hp).1), List.eq_replicate_iff]
    refine ⟨by simp [c1, c2], ?_⟩
    intro b hb
    obtain ⟨p, hp, rfl⟩ := List.mem_map.1 hb
    exact (hall p hp).2
  · rw [placePieces_init]
    intro who p hp
    cases who
    · exact (piecesOf_color lower _ _ p hp).2
    · exact (piecesOf_color lower _ _ p hp).2

/-- C5 as amended, for ASCII text, the source order of the map and two moves. -/
theorem all_pieces_stay_on_a1_witness :
    (∀ e ∈ pieceMap, asciiLower e.1 = e.1) ∧
    (∀ i : Nat, ((fun _ => pieceMap) i : List (String × Int)).Perm pieceMap) ∧
    run asciiLower asciiTitle
        [Op.MovePiece .p1 "queen" "f6", Op.MovePiece .p2 "bishop" "a8"] setup0
      = some setup0 ∧
    alivePositions setup0 = List.replicate 32 "a1" :=
  have h := all_pieces_stay_on_a1 asciiLower asciiTitle asciiLower_pieceMap
    (fun _ => pieceMap) (fun _ => List.Perm.refl _)
    [(.p1, "queen", "f6"), (.p2, "bishop", "a8")]
  ⟨asciiLower_pieceMap, fun _ => List.Perm.refl _, h.1, h.2.1⟩

/-! ### Kings and the session -/

theorem kings_set_self (lower : String → String) (s : State) (r : PlayerRef)
    (v : chessPlayer) : kings lower (s.set r v) r = v.playablePieces.countP (isKing lower) := by
  rw [kings, State.get_set_self]

theorem kings_set_ne (lower : String → String) (s : State) (r w : PlayerRef)
    (v : chessPlayer) (h : w ≠ r) : kings lower (s.set r v) w = kings lower s w := by
  rw [kings, State.get_set_ne s r w v h, kings]

theorem isKing_newPiece (lower : String → String) (color pName : String) :
    isKing lower (newPiece lower color pName) = (lower (lower pName) == "king") := rfl

/-- What `CreatePieces` does to the kings and to the session. -/
theorem CreatePieces_kings (lower : String → String) (who : PlayerRef) (pName : String)
    (pCount : Int) (s : State) (w : PlayerRef) :
    (CreatePieces lower who pName pCount s).1.sessionPlayers = s.sessionPlayers ∧
    kings lower s w ≤ kings lower (CreatePieces lower who pName pCount s).1 w ∧
    ((pCount ≤ 0 ∨ lower (lower pName) ≠ "king") →
      kings lower (CreatePieces lower who pName pCount s).1 w = kings lower s w) := by
  refine ⟨State.sessionPlayers_set _ _ _, ?_⟩
  by_cases h : w = who
  · subst h
    simp only [CreatePieces, kings_set_self, CreatePieces.loop_eq, List.countP_append,
      List.countP_replicate, isKing_newPiece]
    refine ⟨Nat.le_add_right _ _, ?_⟩
    rintro (h | h)
    · have : pCount.toNat = 0 := by omega
      simp [kings, this]
    · simp [kings, h]
  · simp [CreatePieces, kings_set_ne lower _ _ _ _ h]

theorem placePieces.inner_kings (lower : String → String) (plr : PlayerRef)
    (order : List (String × Int)) (s : State) (w : PlayerRef) :
    (placePieces.inner lower plr order s).sessionPlayers = s.sessionPlayers ∧
    kings lower s w ≤ kings lower (placePieces.inner lower plr order s) w := by
  rw [placePieces.inner_eq]
  refine ⟨State.sessionPlayers_set _ _ _, ?_⟩
  by_cases h : w = plr
  · subst h
    rw [kings_set_self, List.countP_append]
    exact Nat.le_add_right _ _
  · rw [kings_set_ne lower _ _ _ _ h]

theorem placePieces.outer_kings (lower : String → String)
    (orders : Nat → List (String × Int)) (w : PlayerRef) :
    ∀ (l : List PlayerRef) (i : Nat) (s : State),
      (placePieces.outer lower orders i l s).sessionPlayers = s.sessionPlayers ∧
      kings lower s w ≤ kings lower (placePieces.outer lower orders i l s) w := by
  intro l
  induction l with
  | nil => intro i s; exact ⟨rfl, Nat.le_refl _⟩
  | cons plr rest ih =>
    intro i s
    rw [placePieces.outer]
    obtain ⟨a1, a2⟩ := placePieces.inner_kings lower plr (orders i) s w
    obtain ⟨b1, b2⟩ := ih (i + 1) (placePieces.inner lower plr (orders i) s)
    exact ⟨b1.trans a1, Nat.le_trans a2 b2⟩

/-- What a completed `KillKing` does: it returns true, the caller has no
king left and is out of the session, nobody enters the session and the
other player is untouched. -/
theorem KillKing_effect (lower : String → String) (who : PlayerRef) (s s' : State)
    (b : Bool) (h : KillKing lower who s = some (s', b)) :
    b = true ∧ kings lower s' who = 0 ∧
    (∀ w ∈ s'.sessionPlayers, w ∈ s.sessionPlayers ∧ w ≠ who) ∧
    (∀ w, w ≠ who → s'.get w = s.get w) := by
  unfold KillKing at h
  cases hr : KillKing_roster lower (s.get who).playablePieces with
  | none => simp [hr] at h
  | some ps =>
    simp only [hr] at h
    cases hs : KillKing_session (s.set who { s.get who with playablePieces := ps })
        (s.get who).name with
    | none => simp [hs] at h
    | some sp =>
      simp only [hs, Option.some.injEq, Prod.mk.injEq] at h
      obtain ⟨h1, h2⟩ := h
      subst h1
      have hget : ∀ w, State.get { s.set who { s.get who with playablePieces := ps } with
          sessionPlayers := sp } w
            = (s.set who { s.get who with playablePieces := ps }).get w := by
        intro w; cases w <;> rfl
      refine ⟨h2.symm, ?_, ?_, ?_⟩
      · rw [kings, hget, State.get_set_self]
        exact List.countP_eq_zero.2 (fun p hp => by
          simp [rangeLoop_no_hit_left (isKing lower) _ _ hr p hp])
      · intro w hw
        have hw' : w ∈ sp := hw
        refine ⟨?_, ?_⟩
        · have := rangeLoop_subset _ _ _ hs w hw'
          rwa [State.sessionPlayers_set] at this
        · rintro rfl
          have := rangeLoop_no_hit_left _ _ _ hs w hw'
          simp [State.get_set_self, chessPlayer.GetName] at this
      · intro w hw
        rw [hget, State.get_set_ne _ _ _ _ hw]

theorem MovePiece_state (lower title : String → String) (v : chessPlayer)
    (pName location : String) (s : State) (r : MoveResult)
    (h : MovePiece lower title v pName location s = some r) : r.state = s := by
  unfold MovePiece at h
  split at h
  · split at h
    · simp at h
    · simp only [Option.some.injEq] at h
      rw [← h]
  · split at h <;>
    · simp only [Option.some.injEq] at h
      rw [← h]

/-- What one completed call does to the kings of the players in the session. -/
theorem step_kings (lower title : String → String) (op : Op) (s s' : State)
    (h : step lower title op s = some s') :
    ∀ w ∈ s'.sessionPlayers, w ∈ s.sessionPlayers ∧ kings lower s w ≤ kings lower s' w ∧
      (op.addsNoKing lower → kings lower s' w = kings lower s w) := by
  intro w hw
  cases op with
  | placePieces orders =>
    simp only [step, Option.some.injEq] at h
    subst h
    obtain ⟨a1, a2⟩ := placePieces.outer_kings lower orders w s.sessionPlayers 0 s
    exact ⟨by rw [← a1]; exact hw, a2, fun hno => absurd hno (by simp [Op.addsNoKing])⟩
  | CreatePieces who pName pCount =>
    simp only [step, Option.some.injEq] at h
    subst h
    obtain ⟨a1, a2, a3⟩ := CreatePieces_kings lower who pName pCount s w
    exact ⟨by rw [← a1]; exact hw, a2, fun hno => a3 hno⟩
  | MovePiece who pName location =>
    simp only [step] at h
    cases hm : MovePiece lower title (s.get who) pName location s with
    | none => simp [hm] at h
    | some r =>
      simp only [hm, Option.map_some', Option.some.injEq] at h
      have := MovePiece_state lower title _ _ _ _ _ hm
      rw [h] at this
      subst this
      exact ⟨hw, Nat.le_refl _, fun _ => rfl⟩
  | KillKing who =>
    simp only [step] at h
    cases hk : KillKing lower who s with
    | none => simp [hk] at h
    | some r =>
      simp only [hk, Option.map_some', Option.some.injEq] at h
      obtain ⟨_, _, e1, e2⟩ := KillKing_effect lower who s r.1 r.2 hk
      rw [h] at e1 e2
      obtain ⟨m1, m2⟩ := e1 w hw
      have : kings lower s' w = kings lower s w := by rw [kings, e2 w m2, kings]
      exact ⟨m1, by omega, fun _ => this⟩

theorem run_kings (lower title : String → String) :
    ∀ (ops : List Op) (s s' : State), run lower title ops s = some s' →
      ∀ w ∈ s'.sessionPlayers, w ∈ s.sessionPlayers ∧ kings lower s w ≤ kings lower s' w ∧
        ((∀ op ∈ ops, op.addsNoKing lower) → kings lower s' w = kings lower s w) := by
  intro ops
  induction ops with
  | nil =>
    intro s s' h w hw
    simp only [run, Option.some.injEq] at h
    subst h
    exact ⟨hw, Nat.le_refl _, fun _ => rfl⟩
  | cons op rest ih =>
    intro s s' h w hw
    rw [run] at h
    cases hs : step lower title op s with
    | none => simp [hs] at h
    | some s1 =>
      simp only [hs] at h
      obtain ⟨a1, a2, a3⟩ := ih s1 s' h w hw
      obtain ⟨b1, b2, b3⟩ := step_kings lower title op s s1 hs w a1
      refine ⟨b1, Nat.le_trans b2 a2, fun hall => ?_⟩
      rw [a3 (fun o ho => hall o (List.mem_cons_of_mem _ ho)),
        b3 (hall op (List.mem_cons_self _ _))]

theorem kings_setup (lower : String → String)
    (hl : ∀ e ∈ pieceMap, lower e.1 = e.1) (orders : Nat → List (String × Int))
    (ho : ∀ i, (orders i).Perm pieceMap) (w : PlayerRef) :
    kings lower (placePieces lower orders init) w = 1 := by
  rw [placePieces_init]
  cases w
  · exact piecesOf_countP_isKing lower hl "White" (orders 0) (ho 0)
  · exact piecesOf_countP_isKing lower hl "Black" (orders 1) (ho 1)

/-- C6 fails: a second `placePieces` after set-up leaves White in the session
with two kings; so does for Black the second `placePieces` of `main`, called
after White has lost the king. -/
theorem second_placePieces_two_kings :
    PlayerRef.p1 ∈ (placePieces asciiLower (fun _ => pieceMap) setup0).sessionPlayers ∧
    kings asciiLower (placePieces asciiLower (fun _ => pieceMap) setup0) .p1 = 2 ∧
    ∃ s, run asciiLower asciiTitle
        [Op.KillKing .p1, Op.placePieces (fun _ => pieceMap)] setup0 = some s ∧
      PlayerRef.p2 ∈ s.sessionPlayers ∧ kings asciiLower s .p2 = 2 := by
  decide

/-- C6 as amended: in every state reached from the set-up session by calls
of `placePieces`, `CreatePieces`, `MovePiece` and `KillKing`, every player
still in `sessionPlayers` has at least one king, and exactly one when no
call after set-up could add a king (no `placePieces`, no `CreatePieces` of a
king with a positive count); a player without a king is not in
`sessionPlayers`. -/
theorem session_players_keep_a_king (lower title : String → String)
    (hl : ∀ e ∈ pieceMap, lower e.1 = e.1) (orders : Nat → List (String × Int))
    (ho : ∀ i, (orders i).Perm pieceMap) (ops : List Op) (s : State)
    (hrun : run lower title ops (placePieces lower orders init) = some s) :
    (∀ w ∈ s.sessionPlayers, 1 ≤ kings lower s w) ∧
    ((∀ op ∈ ops, op.addsNoKing lower) → ∀ w ∈ s.sessionPlayers, kings lower s w = 1) ∧
    (∀ w, kings lower s w = 0 → w ∉ s.sessionPlayers) := by
  have key := run_kings lower title ops _ s hrun
  have k0 := kings_setup lower hl orders ho
  refine ⟨?_, ?_, ?_⟩
  · intro w hw
    have := (key w hw).2.1
    rw [k0] at this
    exact this
  · intro hall w hw
    rw [(key w hw).2.2 hall, k0]
  · intro w h0 hw
    have := (key w hw).2.1
    rw [k0] at this
    omega

/-- C6 as amended, for ASCII text, the source order of the map, and the
calls of the loop body of `main`. -/
theorem session_players_keep_a_king_witness :
    (∀ e ∈ pieceMap, asciiLower e.1 = e.1) ∧
    (∀ i : Nat, ((fun _ => pieceMap) i : List (String × Int)).Perm pieceMap) ∧
    ∃ s, run asciiLower asciiTitle
        [Op.MovePiece .p1 "queen" "f6", Op.MovePiece .p2 "bishop" "a8",
          Op.MovePiece .p1 "pawn" "h4", Op.KillKing .p1, Op.MovePiece .p1 "king" "h6"]
        (placePieces asciiLower (fun _ => pieceMap) init) = some s ∧
      s.sessionPlayers = [.p2] ∧
      (∀ w ∈ s.sessionPlayers, 1 ≤ kings asciiLower s w) ∧
      (∀ w, kings asciiLower s w = 0 → w ∉ s.sessionPlayers) := by
  obtain ⟨s, hs, hsp⟩ : ∃ s, run asciiLower asciiTitle
        [Op.MovePiece .p1 "queen" "f6", Op.MovePiece .p2 "bishop" "a8",
          Op.MovePiece .p1 "pawn" "h4", Op.KillKing .p1, Op.MovePiece .p1 "king" "h6"]
        (placePieces asciiLower (fun _ => pieceMap) init) = some s ∧
        s.sessionPlayers = [.p2] := by
    decide
  have h := session_players_keep_a_king asciiLower asciiTitle asciiLower_pieceMap
    (fun _ => pieceMap) (fun _ => List.Perm.refl _) _ s hs
  exact ⟨asciiLower_pieceMap, fun _ => List.Perm.refl _, s, hs, hsp, h.1, h.2.2⟩

end Chess
